import Mathlib

/-
Verification of the treeagent core (spec.md) against the Go sources.

The embedding follows the current revision of the sources:
  * `smallVec` (a `[]float64` of fixed length `d`) is modelled as `Fin d → ℝ`;
    every Go method below is a pointwise translation of the corresponding
    method on `smallVec` (vec_floats / part_009 of the sources).
  * the split trackers of `algo.go` are modelled as explicit state records
    with `Reset` / `MoveToLeft` / `Quality` translated field by field;
  * IEEE divisions that the Go code performs without guarding against a
    zero divisor are modelled by `goDiv`, which returns `none` when the
    divisor is zero (the Go program produces NaN/±Inf there, never a
    finite value); guarded divisions (the `if n == 0` checks of
    `mseTracker.leftRightErrors`) are modelled with ordinary real division
    under the guard, where the divisor is provably nonzero.
-/

noncomputable section

/-- A fixed-length float vector (`smallVec` in the sources). -/
abbrev Vec (d : ℕ) := Fin d → ℝ

/-- The all-zero vector (`make(smallVec, n)` in Go). -/
def vzero (d : ℕ) : Vec d := fun _ => 0

/-- Embedding of `smallVec.Add` (pointwise, receiver and argument of the same length). -/
def vadd {d : ℕ} (a b : Vec d) : Vec d := fun j => a j + b j

/-- Embedding of `smallVec.Sub` (pointwise). -/
def vsub {d : ℕ} (a b : Vec d) : Vec d := fun j => a j - b j

/-- Embedding of `smallVec.Scale`: every component is multiplied by `c`. -/
def vscale {d : ℕ} (a : Vec d) (c : ℝ) : Vec d := fun j => a j * c

/-- Embedding of `smallVec.Dot`. -/
def dot {d : ℕ} (a b : Vec d) : ℝ := ∑ j, a j * b j

/-- Embedding of `smallVec.AbsSum`. -/
def absSum {d : ℕ} (a : Vec d) : ℝ := ∑ j, |a j|

/-- Embedding of `sumGradients` (build.go / gradient.go): `samples[0]` plus the rest.
Go panics on an empty list; the `[]` branch is junk (never used under the
callers' non-emptiness invariant). -/
def sumGradients {d : ℕ} : List (Vec d) → Vec d
  | [] => vzero d
  | g :: rest => rest.foldl vadd g

/-- Mathematical componentwise sum of a list of gradients (reference form). -/
def gradSum {d : ℕ} (gs : List (Vec d)) : Vec d :=
  fun j => (gs.map (fun g => g j)).sum

/-- Sum of the squared norms of a list of gradients. -/
def sqSum {d : ℕ} (gs : List (Vec d)) : ℝ := (gs.map (fun g => dot g g)).sum

lemma foldl_vadd_eq {d : ℕ} (l : List (Vec d)) (init : Vec d) :
    l.foldl vadd init = vadd init (gradSum l) := by
  induction l generalizing init with
  | nil => funext j; simp [gradSum, vadd]
  | cons g rest ih =>
    simp only [List.foldl_cons, ih]
    funext j
    simp [vadd, gradSum]
    ring

lemma sumGradients_eq {d : ℕ} (gs : List (Vec d)) :
    sumGradients gs = gradSum gs := by
  cases gs with
  | nil => funext j; simp [sumGradients, gradSum, vzero]
  | cons g rest =>
    simp only [sumGradients, foldl_vadd_eq]
    funext j
    simp [vadd, gradSum]

lemma gradSum_append {d : ℕ} (a b : List (Vec d)) :
    gradSum (a ++ b) = vadd (gradSum a) (gradSum b) := by
  funext j
  simp [gradSum, vadd]

/-- Go float64 division as the code performs it unguarded: a zero divisor
produces a non-finite value (NaN or ±Inf), which we model as `none`. -/
def goDiv (x y : ℝ) : Option ℝ := if y = 0 then none else some (x / y)

/-- Addition of possibly non-finite values: a non-finite operand makes the
Go sum non-finite. -/
def optAdd : Option ℝ → Option ℝ → Option ℝ
  | some a, some b => some (a + b)
  | _, _ => none

/-! ### The split trackers of algo.go -/

/-- Embedding of `sumTracker` (algo.go): running sums of the left and right partitions. -/
@[ext]
structure SumTracker (d : ℕ) where
  leftSum : Vec d
  rightSum : Vec d

/-- Embedding of `sumTracker.Reset`. -/
def sumReset {d : ℕ} (rightSamples : List (Vec d)) : SumTracker d :=
  { leftSum := vzero d, rightSum := sumGradients rightSamples }

/-- Embedding of `sumTracker.MoveToLeft`. -/
def sumMove {d : ℕ} (t : SumTracker d) (g : Vec d) : SumTracker d :=
  { leftSum := vadd t.leftSum g, rightSum := vsub t.rightSum g }

/-- Embedding of `sumTracker.Quality`. -/
def sumQuality {d : ℕ} (t : SumTracker d) : ℝ :=
  dot t.leftSum t.leftSum + dot t.rightSum t.rightSum

/-- Embedding of `balancedSumTracker` (algo.go). -/
@[ext]
structure BalancedSumTracker (d : ℕ) where
  sumTracker : SumTracker d
  leftCount : ℤ
  rightCount : ℤ

/-- Embedding of `balancedSumTracker.Reset`. -/
def balancedReset {d : ℕ} (rightSamples : List (Vec d)) : BalancedSumTracker d :=
  { sumTracker := sumReset rightSamples, leftCount := 0,
    rightCount := rightSamples.length }

/-- Embedding of `balancedSumTracker.MoveToLeft`. -/
def balancedMove {d : ℕ} (t : BalancedSumTracker d) (g : Vec d) :
    BalancedSumTracker d :=
  { sumTracker := sumMove t.sumTracker g, leftCount := t.leftCount + 1,
    rightCount := t.rightCount - 1 }

/-- Embedding of `balancedSumTracker.Quality`. -/
def balancedQuality {d : ℕ} (t : BalancedSumTracker d) : ℝ :=
  sumQuality t.sumTracker * ((t.leftCount * t.rightCount : ℤ) : ℝ)

/-- Embedding of `meanTracker` (algo.go). -/
@[ext]
structure MeanTracker (d : ℕ) where
  sumTracker : SumTracker d
  leftCount : ℤ
  rightCount : ℤ

/-- Embedding of `meanTracker.Reset`. -/
def meanReset {d : ℕ} (rightSamples : List (Vec d)) : MeanTracker d :=
  { sumTracker := sumReset rightSamples, leftCount := 0,
    rightCount := rightSamples.length }

/-- Embedding of `meanTracker.MoveToLeft`. -/
def meanMove {d : ℕ} (t : MeanTracker d) (g : Vec d) : MeanTracker d :=
  { sumTracker := sumMove t.sumTracker g, leftCount := t.leftCount + 1,
    rightCount := t.rightCount - 1 }

/-- Embedding of `meanTracker.Quality`: `leftSum·leftSum/leftCount + rightSum·rightSum/rightCount`.
The Go code divides without guarding a zero count, so a zero count makes the
result non-finite (modelled by `goDiv`/`optAdd`). -/
def meanQuality {d : ℕ} (t : MeanTracker d) : Option ℝ :=
  optAdd (goDiv (dot t.sumTracker.leftSum t.sumTracker.leftSum) (t.leftCount : ℝ))
    (goDiv (dot t.sumTracker.rightSum t.sumTracker.rightSum) (t.rightCount : ℝ))

/-- Embedding of `mseTracker` (algo.go). -/
@[ext]
structure MseTracker (d : ℕ) where
  sumTracker : SumTracker d
  leftSquares : ℝ
  rightSquares : ℝ
  leftCount : ℤ
  rightCount : ℤ

/-- Embedding of `mseTracker.Reset`. -/
def mseReset {d : ℕ} (rightSamples : List (Vec d)) : MseTracker d :=
  { sumTracker := sumReset rightSamples, leftSquares := 0,
    rightSquares := sqSum rightSamples, leftCount := 0,
    rightCount := rightSamples.length }

/-- Embedding of `mseTracker.MoveToLeft`. -/
def mseMove {d : ℕ} (t : MseTracker d) (g : Vec d) : MseTracker d :=
  { sumTracker := sumMove t.sumTracker g,
    leftSquares := t.leftSquares + dot g g,
    rightSquares := t.rightSquares - dot g g,
    leftCount := t.leftCount + 1, rightCount := t.rightCount - 1 }

/-- Embedding of `mseTracker.leftRightErrors`: the per-side residual
`sqSums - sum·sum/n`, with the side skipped (left at `0`) when its count is
zero — this guard is in the Go code (`if n == 0 continue`). -/
def leftRightErrors {d : ℕ} (t : MseTracker d) : ℝ × ℝ :=
  (if t.leftCount = 0 then 0
    else t.leftSquares -
      dot t.sumTracker.leftSum t.sumTracker.leftSum / (t.leftCount : ℝ),
   if t.rightCount = 0 then 0
    else t.rightSquares -
      dot t.sumTracker.rightSum t.sumTracker.rightSum / (t.rightCount : ℝ))

/-- Embedding of `mseTracker.Quality`. -/
def mseQuality {d : ℕ} (t : MseTracker d) : ℝ :=
  -((leftRightErrors t).1 + (leftRightErrors t).2)

/-- Embedding of `stddevTracker.Quality` (the state is the embedded `mseTracker`). -/
def stddevQuality {d : ℕ} (t : MseTracker d) : ℝ :=
  -(Real.sqrt ((t.leftCount : ℝ) * (leftRightErrors t).1) +
    Real.sqrt ((t.rightCount : ℝ) * (leftRightErrors t).2))

/-- Embedding of `signTracker.Quality` (the state is the embedded `sumTracker`). -/
def signQuality {d : ℕ} (t : SumTracker d) : ℝ :=
  absSum t.leftSum + absSum t.rightSum

/-! ### Tracker state after `Reset` and `k` `MoveToLeft` calls -/

/-- Quality of `sumTracker` after `Reset(gs)` and moving the first `k`
samples of `gs` to the left, in list order. -/
def sumQualityAt {d : ℕ} (gs : List (Vec d)) (k : ℕ) : ℝ :=
  sumQuality ((gs.take k).foldl sumMove (sumReset gs))

/-- Quality of `balancedSumTracker` after `Reset(gs)` and `k` moves. -/
def balancedQualityAt {d : ℕ} (gs : List (Vec d)) (k : ℕ) : ℝ :=
  balancedQuality ((gs.take k).foldl balancedMove (balancedReset gs))

/-- Quality of `meanTracker` after `Reset(gs)` and `k` moves. -/
def meanQualityAt {d : ℕ} (gs : List (Vec d)) (k : ℕ) : Option ℝ :=
  meanQuality ((gs.take k).foldl meanMove (meanReset gs))

/-- Quality of `mseTracker` after `Reset(gs)` and `k` moves. -/
def mseQualityAt {d : ℕ} (gs : List (Vec d)) (k : ℕ) : ℝ :=
  mseQuality ((gs.take k).foldl mseMove (mseReset gs))

/-- Quality of `stddevTracker` after `Reset(gs)` and `k` moves. -/
def stddevQualityAt {d : ℕ} (gs : List (Vec d)) (k : ℕ) : ℝ :=
  stddevQuality ((gs.take k).foldl mseMove (mseReset gs))

/-- Quality of `signTracker` after `Reset(gs)` and `k` moves. -/
def signQualityAt {d : ℕ} (gs : List (Vec d)) (k : ℕ) : ℝ :=
  signQuality ((gs.take k).foldl sumMove (sumReset gs))

/-! ### From-scratch qualities, per the spec formulas (section 4.2) -/

/-- From-scratch Sum quality over the partition (first `k` | rest):
`Lsum·Lsum + Rsum·Rsum`. -/
def specSumQuality {d : ℕ} (gs : List (Vec d)) (k : ℕ) : ℝ :=
  dot (gradSum (gs.take k)) (gradSum (gs.take k)) +
    dot (gradSum (gs.drop k)) (gradSum (gs.drop k))

/-- From-scratch Mean quality: `Lsum·Lsum/Ln + Rsum·Rsum/Rn`, a side being
skipped when its count is zero. -/
def specMeanQuality {d : ℕ} (gs : List (Vec d)) (k : ℕ) : ℝ :=
  (if (gs.take k).length = 0 then 0
    else dot (gradSum (gs.take k)) (gradSum (gs.take k)) / ((gs.take k).length : ℝ)) +
  (if (gs.drop k).length = 0 then 0
    else dot (gradSum (gs.drop k)) (gradSum (gs.drop k)) / ((gs.drop k).length : ℝ))

/-- From-scratch per-side MSE residual `Σ‖g‖² − ‖Σg‖²/n` (0 on an empty side). -/
def specErr {d : ℕ} (l : List (Vec d)) : ℝ :=
  if l.length = 0 then 0
  else sqSum l - dot (gradSum l) (gradSum l) / (l.length : ℝ)

/-- From-scratch MSE quality: minus the sum of the two residuals. -/
def specMSEQuality {d : ℕ} (gs : List (Vec d)) (k : ℕ) : ℝ :=
  -(specErr (gs.take k) + specErr (gs.drop k))

/-- From-scratch Stddev quality: `−(√(Ln·Le) + √(Rn·Re))`. -/
def specStddevQuality {d : ℕ} (gs : List (Vec d)) (k : ℕ) : ℝ :=
  -(Real.sqrt (((gs.take k).length : ℝ) * specErr (gs.take k)) +
    Real.sqrt (((gs.drop k).length : ℝ) * specErr (gs.drop k)))

/-- From-scratch BalancedSum quality: the Sum quality times `Ln·Rn`. -/
def specBalancedQuality {d : ℕ} (gs : List (Vec d)) (k : ℕ) : ℝ :=
  specSumQuality gs k * (((gs.take k).length : ℝ) * ((gs.drop k).length : ℝ))

/-- From-scratch Sign quality: `‖Lsum‖₁ + ‖Rsum‖₁`. -/
def specSignQuality {d : ℕ} (gs : List (Vec d)) (k : ℕ) : ℝ :=
  absSum (gradSum (gs.take k)) + absSum (gradSum (gs.drop k))

/-! ### State of every tracker after the reset / move protocol -/

lemma sqSum_append {d : ℕ} (a b : List (Vec d)) :
    sqSum (a ++ b) = sqSum a + sqSum b := by
  simp [sqSum]

lemma length_take_int_sub (α : Type _) (gs : List α) (k : ℕ) :
    (gs.length : ℤ) - ((gs.take k).length : ℤ) = ((gs.drop k).length : ℤ) := by
  simp only [List.length_take, List.length_drop]
  omega

lemma foldl_sumMove {d : ℕ} (l : List (Vec d)) (t : SumTracker d) :
    l.foldl sumMove t =
      ⟨vadd t.leftSum (gradSum l), vsub t.rightSum (gradSum l)⟩ := by
  induction l generalizing t with
  | nil =>
    ext j <;> simp [gradSum, vadd, vsub]
  | cons g rest ih =>
    simp only [List.foldl_cons, ih]
    ext j <;> simp [sumMove, vadd, vsub, gradSum] <;> ring

lemma sumState {d : ℕ} (gs : List (Vec d)) (k : ℕ) :
    (gs.take k).foldl sumMove (sumReset gs) =
      ⟨gradSum (gs.take k), gradSum (gs.drop k)⟩ := by
  rw [foldl_sumMove]
  ext j
  · simp [sumReset, vadd, vzero]
  · have h : gradSum gs = vadd (gradSum (gs.take k)) (gradSum (gs.drop k)) := by
      conv_lhs => rw [← List.take_append_drop k gs]
      exact gradSum_append _ _
    simp [sumReset, sumGradients_eq, h, vadd, vsub]

lemma foldl_meanMove {d : ℕ} (l : List (Vec d)) (t : MeanTracker d) :
    l.foldl meanMove t =
      ⟨l.foldl sumMove t.sumTracker, t.leftCount + l.length,
        t.rightCount - l.length⟩ := by
  induction l generalizing t with
  | nil => simp
  | cons g rest ih =>
    simp only [List.foldl_cons, ih, meanMove]
    refine MeanTracker.ext rfl ?_ ?_ <;> simp <;> ring

lemma foldl_balancedMove {d : ℕ} (l : List (Vec d)) (t : BalancedSumTracker d) :
    l.foldl balancedMove t =
      ⟨l.foldl sumMove t.sumTracker, t.leftCount + l.length,
        t.rightCount - l.length⟩ := by
  induction l generalizing t with
  | nil => simp
  | cons g rest ih =>
    simp only [List.foldl_cons, ih, balancedMove]
    refine BalancedSumTracker.ext rfl ?_ ?_ <;> simp <;> ring

lemma foldl_mseMove {d : ℕ} (l : List (Vec d)) (t : MseTracker d) :
    l.foldl mseMove t =
      ⟨l.foldl sumMove t.sumTracker, t.leftSquares + sqSum l,
        t.rightSquares - sqSum l, t.leftCount + l.length,
        t.rightCount - l.length⟩ := by
  induction l generalizing t with
  | nil => simp [sqSum]
  | cons g rest ih =>
    simp only [List.foldl_cons, ih, mseMove]
    refine MseTracker.ext rfl ?_ ?_ ?_ ?_ <;> simp [sqSum] <;> ring

lemma meanState {d : ℕ} (gs : List (Vec d)) (k : ℕ) :
    (gs.take k).foldl meanMove (meanReset gs) =
      ⟨⟨gradSum (gs.take k), gradSum (gs.drop k)⟩,
        ((gs.take k).length : ℤ), ((gs.drop k).length : ℤ)⟩ := by
  rw [foldl_meanMove]
  refine MeanTracker.ext ?_ (by simp [meanReset]) ?_
  · exact (sumState gs k : _)
  · simpa [meanReset] using length_take_int_sub _ gs k

lemma balancedState {d : ℕ} (gs : List (Vec d)) (k : ℕ) :
    (gs.take k).foldl balancedMove (balancedReset gs) =
      ⟨⟨gradSum (gs.take k), gradSum (gs.drop k)⟩,
        ((gs.take k).length : ℤ), ((gs.drop k).length : ℤ)⟩ := by
  rw [foldl_balancedMove]
  refine BalancedSumTracker.ext ?_ (by simp [balancedReset]) ?_
  · exact (sumState gs k : _)
  · simpa [balancedReset] using length_take_int_sub _ gs k

lemma mseState {d : ℕ} (gs : List (Vec d)) (k : ℕ) :
    (gs.take k).foldl mseMove (mseReset gs) =
      ⟨⟨gradSum (gs.take k), gradSum (gs.drop k)⟩,
        sqSum (gs.take k), sqSum (gs.drop k),
        ((gs.take k).length : ℤ), ((gs.drop k).length : ℤ)⟩ := by
  have hsq : sqSum gs = sqSum (gs.take k) + sqSum (gs.drop k) := by
    conv_lhs => rw [← List.take_append_drop k gs]
    exact sqSum_append _ _
  rw [foldl_mseMove]
  refine MseTracker.ext ?_ ?_ ?_ ?_ ?_
  · exact (sumState gs k : _)
  · simp [mseReset]
  · simp [mseReset, hsq]
  · simp [mseReset]
  · simpa [mseReset] using length_take_int_sub _ gs k

/-! ### Incremental quality = from-scratch quality, per variant -/

lemma sumQualityAt_eq {d : ℕ} (gs : List (Vec d)) (k : ℕ) :
    sumQualityAt gs k = specSumQuality gs k := by
  rw [sumQualityAt, sumState]
  rfl

lemma signQualityAt_eq {d : ℕ} (gs : List (Vec d)) (k : ℕ) :
    signQualityAt gs k = specSignQuality gs k := by
  rw [signQualityAt, sumState]
  rfl

lemma balancedQualityAt_eq {d : ℕ} (gs : List (Vec d)) (k : ℕ) :
    balancedQualityAt gs k = specBalancedQuality gs k := by
  rw [balancedQualityAt, balancedState]
  rw [balancedQuality, specBalancedQuality, specSumQuality]
  push_cast
  rfl

lemma mseErrors_eq {d : ℕ} (gs : List (Vec d)) (k : ℕ) :
    leftRightErrors ((gs.take k).foldl mseMove (mseReset gs)) =
      (specErr (gs.take k), specErr (gs.drop k)) := by
  rw [mseState]
  simp only [leftRightErrors, specErr, Int.natCast_eq_zero, Int.cast_natCast]

lemma mseQualityAt_eq {d : ℕ} (gs : List (Vec d)) (k : ℕ) :
    mseQualityAt gs k = specMSEQuality gs k := by
  rw [mseQualityAt, mseQuality, mseErrors_eq, specMSEQuality]

lemma stddevQualityAt_eq {d : ℕ} (gs : List (Vec d)) (k : ℕ) :
    stddevQualityAt gs k = specStddevQuality gs k := by
  rw [stddevQualityAt, stddevQuality, mseErrors_eq]
  rw [mseState, specStddevQuality]
  push_cast
  rfl

lemma meanQualityAt_eq {d : ℕ} (gs : List (Vec d)) (k : ℕ) (hk1 : 1 ≤ k)
    (hk2 : k < gs.length) :
    meanQualityAt gs k = some (specMeanQuality gs k) := by
  have hlt : (gs.take k).length = k := by
    simp only [List.length_take]
    omega
  have hn0 : ¬k = 0 := by omega
  have hd0 : ¬gs.length - k = 0 := by omega
  rw [meanQualityAt, meanState]
  simp only [meanQuality, goDiv, Int.cast_natCast, Int.natCast_eq_zero, hlt,
    List.length_drop, Nat.cast_eq_zero]
  rw [if_neg hn0, if_neg hd0]
  simp only [optAdd, specMeanQuality, hlt, List.length_drop]
  rw [if_neg hn0, if_neg hd0]

lemma meanQualityAt_zero {d : ℕ} (gs : List (Vec d)) :
    meanQualityAt gs 0 = none := by
  simp [meanQualityAt, meanReset, meanQuality, goDiv, optAdd]

/-! ### Claims about the tracker family -/

/-- C1 (amended): for every non-empty sample list, the quality reported by
each incrementally maintained tracker after `Reset` with the whole list on
the right followed by `k` `MoveToLeft` calls in list order equals — exactly,
hence within any relative error — the from-scratch quality of that
algorithm's formula over the partition (first `k` | rest), for the sum,
MSE, balanced-sum, stddev and sign trackers at every `0 ≤ k ≤ n`, and for
the mean tracker at every `1 ≤ k ≤ n − 1`; at `k = 0` and `k = n` the mean
tracker divides by its zero-valued side count and its result is not finite. -/
theorem trackers_match_from_scratch (d : ℕ) (gs : List (Vec d)) (hne : gs ≠ [])
    (k : ℕ) (hk : k ≤ gs.length) :
    sumQualityAt gs k = specSumQuality gs k ∧
    mseQualityAt gs k = specMSEQuality gs k ∧
    balancedQualityAt gs k = specBalancedQuality gs k ∧
    stddevQualityAt gs k = specStddevQuality gs k ∧
    signQualityAt gs k = specSignQuality gs k ∧
    (1 ≤ k → k < gs.length → meanQualityAt gs k = some (specMeanQuality gs k)) := by
  exact ⟨sumQualityAt_eq gs k, mseQualityAt_eq gs k, balancedQualityAt_eq gs k,
    stddevQualityAt_eq gs k, signQualityAt_eq gs k,
    fun h1 h2 => meanQualityAt_eq gs k h1 h2⟩

/-- Concrete 1-dimensional gradient with value 1. -/
def gC1 : Vec 1 := fun _ => 1

/-- Concrete 1-dimensional gradient with value 3. -/
def gC3 : Vec 1 := fun _ => 3

/-- C1 counterexample: for the mean tracker on the single-sample list
`[(1)]` at `k = 0` (immediately after `Reset`), the incremental quality is
non-finite (the Go code computes `0/0`), while the from-scratch mean
formula of the spec gives `1`; so the claim fails as stated for `k = 0`. -/
theorem mean_tracker_scratch_mismatch :
    meanQualityAt [gC1] 0 = none ∧
    meanQualityAt [gC1] 0 ≠ some (specMeanQuality [gC1] 0) ∧
    specMeanQuality [gC1] 0 = 1 := by
  refine ⟨meanQualityAt_zero _, by rw [meanQualityAt_zero]; simp, ?_⟩
  simp [specMeanQuality, gradSum, dot, gC1, Fin.sum_univ_one]

/-- Witness for C1 at the list `[(1), (3)]` with `k = 1`. -/
theorem trackers_match_from_scratch_witness :
    ([gC1, gC3] ≠ []) ∧ 1 ≤ ([gC1, gC3] : List (Vec 1)).length ∧
    (sumQualityAt [gC1, gC3] 1 = specSumQuality [gC1, gC3] 1 ∧
     mseQualityAt [gC1, gC3] 1 = specMSEQuality [gC1, gC3] 1 ∧
     balancedQualityAt [gC1, gC3] 1 = specBalancedQuality [gC1, gC3] 1 ∧
     stddevQualityAt [gC1, gC3] 1 = specStddevQuality [gC1, gC3] 1 ∧
     signQualityAt [gC1, gC3] 1 = specSignQuality [gC1, gC3] 1 ∧
     (1 ≤ 1 → 1 < ([gC1, gC3] : List (Vec 1)).length →
       meanQualityAt [gC1, gC3] 1 = some (specMeanQuality [gC1, gC3] 1))) :=
  ⟨by simp, by simp,
    trackers_match_from_scratch 1 [gC1, gC3] (by simp) 1 (by simp)⟩

/-- C6 (amended): whenever both partitions are non-empty, the mean
tracker's quality is the finite value `Lsum·Lsum/Ln + Rsum·Rsum/Rn`;
immediately after `Reset`, however, the left count is zero and the
unguarded division `leftSum·leftSum/0` makes the result non-finite —
the Go code has no n = 0 skip in `meanTracker.Quality`. -/
theorem meanTracker_quality_formula (d : ℕ) (gs : List (Vec d)) (k : ℕ)
    (hk1 : 1 ≤ k) (hk2 : k < gs.length) :
    meanQualityAt gs k =
      some (dot (gradSum (gs.take k)) (gradSum (gs.take k)) / ((gs.take k).length : ℝ) +
        dot (gradSum (gs.drop k)) (gradSum (gs.drop k)) / ((gs.drop k).length : ℝ)) ∧
    meanQualityAt gs 0 = none := by
  refine ⟨?_, meanQualityAt_zero gs⟩
  rw [meanQualityAt_eq gs k hk1 hk2]
  have hlt : ¬(gs.take k).length = 0 := by
    simp only [List.length_take]
    omega
  have hld : ¬(gs.drop k).length = 0 := by
    simp only [List.length_drop]
    omega
  rw [specMeanQuality, if_neg hlt, if_neg hld]

/-- C6 counterexample: on `[(3)]`, immediately after `Reset` (left side
empty) the mean tracker's quality is non-finite — the code divides
`0·0/0` — instead of the zero-side-skipping value `9` the claim demands. -/
theorem meanTracker_reset_divides_by_zero :
    meanQualityAt [gC3] 0 = none ∧
    meanQualityAt [gC3] 0 ≠ some (specMeanQuality [gC3] 0) ∧
    specMeanQuality [gC3] 0 = 9 := by
  refine ⟨meanQualityAt_zero _, by rw [meanQualityAt_zero]; simp, ?_⟩
  norm_num [specMeanQuality, gradSum, dot, gC3, Fin.sum_univ_one]

/-- Witness for C6 at the list `[(1), (3)]` with `k = 1`. -/
theorem meanTracker_quality_formula_witness :
    (1:ℕ) ≤ 1 ∧ 1 < ([gC1, gC3] : List (Vec 1)).length ∧
    (meanQualityAt [gC1, gC3] 1 =
      some (dot (gradSum (([gC1, gC3] : List (Vec 1)).take 1))
          (gradSum (([gC1, gC3] : List (Vec 1)).take 1)) /
          ((([gC1, gC3] : List (Vec 1)).take 1).length : ℝ) +
        dot (gradSum (([gC1, gC3] : List (Vec 1)).drop 1))
          (gradSum (([gC1, gC3] : List (Vec 1)).drop 1)) /
          ((([gC1, gC3] : List (Vec 1)).drop 1).length : ℝ)) ∧
     meanQualityAt [gC1, gC3] 0 = none) :=
  ⟨le_refl 1, by simp,
    meanTracker_quality_formula 1 [gC1, gC3] 1 (le_refl 1) (by simp)⟩

/-- The three 2-dimensional gradients of the MSE tracker reference test. -/
def gT1 : Vec 2 := ![1, 2]

/-- Second gradient of the reference test. -/
def gT2 : Vec 2 := ![3, 2]

/-- Third gradient of the reference test. -/
def gT3 : Vec 2 := ![5, 1]

/-- C5: on the gradients `(1,2), (3,2), (5,1)` the MSE tracker reports
qualities `−26/3, −5/2, −2, −26/3` at the partitions 0|3, 1|2, 2|1, 3|0
(exactly; the test compares them to `−8.666…, −2.5, −2, −8.666…`). -/
theorem mseTracker_reference_values :
    mseQualityAt [gT1, gT2, gT3] 0 = -(26/3) ∧
    mseQualityAt [gT1, gT2, gT3] 1 = -(5/2) ∧
    mseQualityAt [gT1, gT2, gT3] 2 = -2 ∧
    mseQualityAt [gT1, gT2, gT3] 3 = -(26/3) := by
  refine ⟨?_, ?_, ?_, ?_⟩ <;>
    norm_num [mseQualityAt_eq, specMSEQuality, specErr, sqSum, gradSum, dot,
      gT1, gT2, gT3, Fin.sum_univ_two, Matrix.cons_val_zero, Matrix.cons_val_one,
      Matrix.head_cons]

/-! ### The per-feature split search of `Builder.optimalSplit` -/

/-- Embedding of `splitInfo` (part_007). The left and right sample slices are
`sorted[:i]` and `sorted[i:]`, so they are recorded here by the split
index `i` into the feature-sorted sample list. -/
structure SplitInfo where
  feature : ℕ
  threshold : ℝ
  quality : ℝ
  index : ℕ

/-- Embedding of `betterSplit` (part_007): prefer the non-nil split, then the strictly
higher quality; on a tie the second argument wins. -/
def betterSplit : Option SplitInfo → Option SplitInfo → Option SplitInfo
  | none, s2 => s2
  | some s1, none => some s1
  | some s1, some s2 => if s1.quality > s2.quality then some s1 else some s2

/-- Go `int(x)` conversion of a float: truncation toward zero. -/
def goTrunc (x : ℝ) : ℤ := if 0 ≤ x then ⌊x⌋ else ⌈x⌉

/-- The bound `essentials.MaxInt(b.MinLeaf, int(b.MinLeafFrac*float64(len(samples))))`
computed at the top of `Builder.optimalSplit`. -/
def minLeafEffective (minLeaf : ℤ) (minLeafFrac : ℝ) (n : ℕ) : ℤ :=
  max minLeaf (goTrunc (minLeafFrac * n))

/-- The loop body of `Builder.optimalSplit` (part_007): walking the sorted
feature values with position `i` and the last distinct value seen, emit a
`splitInfo` whenever the current value strictly exceeds the last one and
both sides hold at least `minLeaf` samples.  `qual i` stands for
`tracker.Quality()` after the `i` `MoveToLeft` calls performed so far
(one per element walked past), i.e. the tracker state over the partition
`sorted[:i] | sorted[i:]`.  The Go loop folds `betterSplit` over these
candidates as it produces them; `tracker.Quality()` is invoked exactly
once per emitted candidate. -/
def splitCandidatesAux (feature : ℕ) (minLeaf : ℤ) (n : ℕ) (qual : ℕ → ℝ) :
    List ℝ → ℕ → ℝ → List SplitInfo
  | [], _, _ => []
  | v :: rest, i, lastValue =>
    if lastValue < v then
      (if minLeaf ≤ (i : ℤ) ∧ minLeaf ≤ (n : ℤ) - (i : ℤ) then
        [⟨feature, (v + lastValue) / 2, qual i, i⟩]
      else []) ++ splitCandidatesAux feature minLeaf n qual rest (i + 1) v
    else splitCandidatesAux feature minLeaf n qual rest (i + 1) lastValue

/-- All split candidates examined by `Builder.optimalSplit` for one
feature, in walk order.  The Go code initialises `lastValue` with
`featureVals[0]` (there must be at least one sample) and walks the whole
sorted value list from position 0. -/
def splitCandidates (feature : ℕ) (minLeaf : ℤ) (vals : List ℝ)
    (qual : ℕ → ℝ) : List SplitInfo :=
  match vals with
  | [] => []
  | v0 :: _ => splitCandidatesAux feature minLeaf vals.length qual vals 0 v0

/-- The value returned by `Builder.optimalSplit`: the `betterSplit` fold
over the candidates in walk order, starting from nil. -/
def optimalSplitResult (feature : ℕ) (minLeaf : ℤ) (vals : List ℝ)
    (qual : ℕ → ℝ) : Option SplitInfo :=
  (splitCandidates feature minLeaf vals qual).foldl
    (fun acc s => betterSplit acc (some s)) none

lemma sorted_getD_le (l : List ℝ) (hs : l.Sorted (· ≤ ·)) (i j : ℕ)
    (hj : j < l.length) (hij : i ≤ j) : l.getD i 0 ≤ l.getD j 0 := by
  have hi : i < l.length := lt_of_le_of_lt hij hj
  rw [List.getD_eq_getElem l 0 hi, List.getD_eq_getElem l 0 hj]
  rcases Nat.eq_or_lt_of_le hij with h | h
  · subst h
    rfl
  · have := List.Sorted.rel_get_of_lt hs (a := ⟨i, hi⟩) (b := ⟨j, hj⟩) h
    simpa [List.get_eq_getElem] using this

lemma splitCandidatesAux_mem (f : ℕ) (m : ℤ) (n : ℕ) (q : ℕ → ℝ)
    (vals : List ℝ) (hs : vals.Sorted (· ≤ ·)) :
    ∀ (l : List ℝ) (i : ℕ), l = vals.drop i → i ≤ vals.length →
      ∀ s, s ∈ splitCandidatesAux f m n q l i (vals.getD (i - 1) 0) ↔
        ∃ j, i ≤ j ∧ j < vals.length ∧ vals.getD (j - 1) 0 < vals.getD j 0 ∧
          m ≤ (j : ℤ) ∧ m ≤ (n : ℤ) - (j : ℤ) ∧
          s = ⟨f, (vals.getD j 0 + vals.getD (j - 1) 0) / 2, q j, j⟩ := by
  intro l
  induction l with
  | nil =>
    intro i hdrop hle s
    simp only [splitCandidatesAux, List.not_mem_nil, false_iff]
    have hlen : vals.length ≤ i := by
      by_contra hlt
      push_neg at hlt
      have h2 := List.drop_eq_getElem_cons hlt
      rw [← hdrop] at h2
      exact List.noConfusion h2
    rintro ⟨j, hij, hjlen, -⟩
    omega
  | cons v rest ih =>
    intro i hdrop hle s
    have hi : i < vals.length := by
      by_contra hge
      push_neg at hge
      rw [List.drop_eq_nil_of_le hge] at hdrop
      exact List.noConfusion hdrop
    have hcons := List.drop_eq_getElem_cons hi
    rw [← hdrop] at hcons
    have hv : v = vals.getD i 0 := by
      rw [List.getD_eq_getElem vals 0 hi]
      exact (List.cons.injEq .. ▸ hcons).1
    have hrest : rest = vals.drop (i + 1) := (List.cons.injEq .. ▸ hcons).2
    have hIH := ih (i + 1) hrest (by omega) s
    simp only [Nat.add_sub_cancel] at hIH
    simp only [splitCandidatesAux]
    by_cases hlt : vals.getD (i - 1) 0 < v
    · rw [if_pos hlt, List.mem_append]
      rw [hv] at hlt ⊢
      rw [hIH]
      constructor
      · rintro (hmem | ⟨j, hij, hjl, hjlt, hm1, hm2, hseq⟩)
        · by_cases hcond : m ≤ (i : ℤ) ∧ m ≤ (n : ℤ) - (i : ℤ)
          · rw [if_pos hcond, List.mem_singleton] at hmem
            exact ⟨i, le_refl i, hi, hlt, hcond.1, hcond.2, hmem⟩
          · rw [if_neg hcond] at hmem
            exact absurd hmem (List.not_mem_nil s)
        · exact ⟨j, by omega, hjl, hjlt, hm1, hm2, hseq⟩
      · rintro ⟨j, hij, hjl, hjlt, hm1, hm2, hseq⟩
        rcases Nat.eq_or_lt_of_le hij with h | h
        · subst h
          left
          rw [if_pos ⟨hm1, hm2⟩, List.mem_singleton]
          exact hseq
        · right
          exact ⟨j, h, hjl, hjlt, hm1, hm2, hseq⟩
    · rw [if_neg hlt]
      have hle2 : vals.getD (i - 1) 0 ≤ vals.getD i 0 :=
        sorted_getD_le vals hs (i - 1) i hi (by omega)
      have heq : vals.getD (i - 1) 0 = vals.getD i 0 := by
        rw [hv] at hlt
        exact le_antisymm hle2 (not_lt.mp hlt)
      rw [heq, hIH]
      constructor
      · rintro ⟨j, hij, hjl, hjlt, hm1, hm2, hseq⟩
        exact ⟨j, by omega, hjl, hjlt, hm1, hm2, hseq⟩
      · rintro ⟨j, hij, hjl, hjlt, hm1, hm2, hseq⟩
        rcases Nat.eq_or_lt_of_le hij with h | h
        · subst h
          rw [heq] at hjlt
          exact absurd hjlt (lt_irrefl _)
        · exact ⟨j, h, hjl, hjlt, hm1, hm2, hseq⟩

lemma splitCandidates_mem (f : ℕ) (m : ℤ) (q : ℕ → ℝ) (vals : List ℝ)
    (hs : vals.Sorted (· ≤ ·)) (s : SplitInfo) :
    s ∈ splitCandidates f m vals q ↔
      ∃ j, 1 ≤ j ∧ j < vals.length ∧ vals.getD (j - 1) 0 < vals.getD j 0 ∧
        m ≤ (j : ℤ) ∧ m ≤ (vals.length : ℤ) - (j : ℤ) ∧
        s = ⟨f, (vals.getD j 0 + vals.getD (j - 1) 0) / 2, q j, j⟩ := by
  cases vals with
  | nil =>
    simp only [splitCandidates, List.not_mem_nil, false_iff]
    rintro ⟨j, -, hjl, -⟩
    exact absurd hjl (by simp)
  | cons v0 vrest =>
    rw [splitCandidates,
      show (s ∈ splitCandidatesAux f m (v0 :: vrest).length q (v0 :: vrest) 0 v0) =
        (s ∈ splitCandidatesAux f m (v0 :: vrest).length q (v0 :: vrest) 0
          ((v0 :: vrest).getD (0 - 1) 0)) from rfl,
      splitCandidatesAux_mem f m (v0 :: vrest).length q (v0 :: vrest) hs
        (v0 :: vrest) 0 rfl (by omega) s]
    constructor
    · rintro ⟨j, -, hjl, hjlt, hm1, hm2, hseq⟩
      have hj1 : 1 ≤ j := by
        rcases Nat.eq_zero_or_pos j with h | h
        · subst h
          exact absurd hjlt (lt_irrefl _)
        · exact h
      exact ⟨j, hj1, hjl, hjlt, hm1, hm2, hseq⟩
    · rintro ⟨j, hj1, hjl, hjlt, hm1, hm2, hseq⟩
      exact ⟨j, by omega, hjl, hjlt, hm1, hm2, hseq⟩

/-- C4 (amended): in `Builder.optimalSplit` over `n` samples sorted by the
feature's value, a candidate split is considered exactly at the boundaries
`j` where the next feature value strictly exceeds the previous one, with
threshold the midpoint of the two adjacent distinct values, and only when
both resulting sides contain at least
`max(MinLeaf, int(MinLeafFrac·n))` samples — where Go's `int(...)`
truncates `MinLeafFrac·n` toward zero, it does not take its ceiling. -/
theorem optimalSplit_candidate_characterization (feat : ℕ) (cfg : ℤ)
    (frac : ℝ) (vals : List ℝ) (q : ℕ → ℝ) (hs : vals.Sorted (· ≤ ·))
    (s : SplitInfo) :
    s ∈ splitCandidates feat (minLeafEffective cfg frac vals.length) vals q ↔
      ∃ j, 1 ≤ j ∧ j < vals.length ∧ vals.getD (j - 1) 0 < vals.getD j 0 ∧
        minLeafEffective cfg frac vals.length ≤ (j : ℤ) ∧
        minLeafEffective cfg frac vals.length ≤ (vals.length : ℤ) - (j : ℤ) ∧
        s = ⟨feat, (vals.getD j 0 + vals.getD (j - 1) 0) / 2, q j, j⟩ :=
  splitCandidates_mem feat _ q vals hs s

lemma minLeafEffective_half_three : minLeafEffective 0 (1/2) 3 = 1 := by
  rw [minLeafEffective, goTrunc, if_pos (by positivity)]
  have h : ⌊(1/2 : ℝ) * (3:ℕ)⌋ = 1 := by
    rw [Int.floor_eq_iff]
    push_cast
    norm_num
  rw [h]
  rfl

lemma splitCandidates_concrete :
    splitCandidates 0 1 [0, 1, 2] (fun _ => 0) =
      [⟨0, 1/2, 0, 1⟩, ⟨0, 3/2, 0, 2⟩] := by
  rw [splitCandidates]
  rw [splitCandidatesAux, if_neg (by norm_num)]
  rw [splitCandidatesAux, if_pos (by norm_num), if_pos (by constructor <;> decide)]
  rw [splitCandidatesAux, if_pos (by norm_num), if_pos (by constructor <;> decide)]
  rw [splitCandidatesAux]
  norm_num

/-- C4 counterexample: with `MinLeaf = 0`, `MinLeafFrac = 1/2` and three
sorted samples with feature values 0, 1, 2, the code's bound is
`int(1.5) = 1`, and the boundary at index 1 — which leaves a single sample
on the left — is considered; the ceiling bound `⌈1.5⌉ = 2` stated by the
claim would exclude it. -/
theorem minLeafFrac_bound_truncates :
    minLeafEffective 0 (1/2) 3 = 1 ∧
    (⟨0, 1/2, 0, 1⟩ : SplitInfo) ∈
      splitCandidates 0 (minLeafEffective 0 (1/2) 3) [0, 1, 2] (fun _ => 0) ∧
    ⌈(1/2 : ℝ) * 3⌉ = 2 ∧ ¬(⌈(1/2 : ℝ) * 3⌉ ≤ (1 : ℤ)) := by
  have hceil : ⌈(1/2 : ℝ) * 3⌉ = 2 := by
    norm_num [Int.ceil_eq_iff]
  refine ⟨minLeafEffective_half_three, ?_, hceil, ?_⟩
  · rw [minLeafEffective_half_three, splitCandidates_concrete]
    exact List.mem_cons_self _ _
  · rw [hceil]
    decide

/-- Witness for C4 at the sorted value list `[0, 1, 2]` with
`MinLeaf = 0` and `MinLeafFrac = 1/2`. -/
theorem optimalSplit_candidate_characterization_witness :
    List.Sorted (· ≤ ·) [(0:ℝ), 1, 2] ∧
    ((⟨0, 1/2, 0, 1⟩ : SplitInfo) ∈
        splitCandidates 0 (minLeafEffective 0 (1/2) [(0:ℝ), 1, 2].length)
          [(0:ℝ), 1, 2] (fun _ => 0) ↔
      ∃ j, 1 ≤ j ∧ j < [(0:ℝ), 1, 2].length ∧
        [(0:ℝ), 1, 2].getD (j - 1) 0 < [(0:ℝ), 1, 2].getD j 0 ∧
        minLeafEffective 0 (1/2) [(0:ℝ), 1, 2].length ≤ (j : ℤ) ∧
        minLeafEffective 0 (1/2) [(0:ℝ), 1, 2].length ≤
          ([(0:ℝ), 1, 2].length : ℤ) - (j : ℤ) ∧
        (⟨0, 1/2, 0, 1⟩ : SplitInfo) =
          ⟨0, ([(0:ℝ), 1, 2].getD j 0 + [(0:ℝ), 1, 2].getD (j - 1) 0) / 2,
            (fun _ => (0:ℝ)) j, j⟩) :=
  ⟨by norm_num [List.sorted_cons],
    optimalSplit_candidate_characterization 0 0 (1/2) [(0:ℝ), 1, 2]
      (fun _ => 0) (by norm_num [List.sorted_cons]) ⟨0, 1/2, 0, 1⟩⟩

/-- C10: every split candidate of `Builder.optimalSplit` — and
`tracker.Quality()` is invoked exactly once per candidate, with the
tracker over the partition `sorted[:i] | sorted[i:]` — has its index `i`
in `[1, n−1]`: a strict increase over the first value cannot occur at
index 0.  Both sides are therefore non-empty at every quality call, and
in particular the mean tracker's unguarded zero-count division is
unreachable from tree building: its quality at any such index is a finite
value. -/
theorem quality_calls_have_nonempty_sides (d : ℕ) (feat : ℕ) (m : ℤ)
    (vals : List ℝ) (q : ℕ → ℝ) (hs : vals.Sorted (· ≤ ·))
    (gs : List (Vec d)) (hlen : gs.length = vals.length) :
    ∀ s ∈ splitCandidates feat m vals q,
      1 ≤ s.index ∧ s.index ≤ vals.length - 1 ∧
        (meanQualityAt gs s.index).isSome = true := by
  intro s hsmem
  obtain ⟨j, hj1, hjl, hjlt, hm1, hm2, hseq⟩ :=
    (splitCandidates_mem feat m q vals hs s).mp hsmem
  subst hseq
  refine ⟨hj1, show j ≤ vals.length - 1 by omega, ?_⟩
  show (meanQualityAt gs j).isSome = true
  rw [meanQualityAt_eq gs j hj1 (by omega)]
  rfl

lemma splitCandidates_two :
    splitCandidates 0 0 [0, 1] (fun _ => 0) = [⟨0, 1/2, 0, 1⟩] := by
  rw [splitCandidates]
  rw [splitCandidatesAux, if_neg (by norm_num)]
  rw [splitCandidatesAux, if_pos (by norm_num), if_pos (by constructor <;> decide)]
  rw [splitCandidatesAux]
  norm_num

/-- Witness for C10 at the sorted value list `[0, 1]` with two gradient
samples; the single candidate sits at index 1. -/
theorem quality_calls_have_nonempty_sides_witness :
    List.Sorted (· ≤ ·) [(0:ℝ), 1] ∧
    ([gC1, gC3] : List (Vec 1)).length = [(0:ℝ), 1].length ∧
    (⟨0, 1/2, 0, 1⟩ : SplitInfo) ∈ splitCandidates 0 0 [(0:ℝ), 1] (fun _ => 0) ∧
    (1 ≤ (⟨0, 1/2, 0, 1⟩ : SplitInfo).index ∧
      (⟨0, 1/2, 0, 1⟩ : SplitInfo).index ≤ [(0:ℝ), 1].length - 1 ∧
      (meanQualityAt [gC1, gC3] (⟨0, 1/2, 0, 1⟩ : SplitInfo).index).isSome = true) :=
  ⟨by norm_num [List.sorted_cons], by simp,
    by rw [splitCandidates_two]; exact List.mem_singleton.mpr rfl,
    quality_calls_have_nonempty_sides 1 0 0 [(0:ℝ), 1] (fun _ => 0)
      (by norm_num [List.sorted_cons]) [gC1, gC3] (by simp) ⟨0, 1/2, 0, 1⟩
      (by rw [splitCandidates_two]; exact List.mem_singleton.mpr rfl)⟩

/-! ### Order dependence of the best-split reduction -/

lemma betterSplit_none_right (w : Option SplitInfo) : betterSplit w none = w := by
  cases w <;> rfl

lemma betterSplit_some (u v : SplitInfo) :
    betterSplit (some u) (some v) =
      if u.quality > v.quality then some u else some v := rfl

lemma betterSplit_some_pos (u v : SplitInfo) (h : u.quality > v.quality) :
    betterSplit (some u) (some v) = some u := by
  rw [betterSplit_some, if_pos h]

lemma betterSplit_some_neg (u v : SplitInfo) (h : ¬u.quality > v.quality) :
    betterSplit (some u) (some v) = some v := by
  rw [betterSplit_some, if_neg h]

lemma betterSplit_comm (a b : SplitInfo) (hq : a.quality ≠ b.quality)
    (z : Option SplitInfo) :
    betterSplit (betterSplit z (some a)) (some b) =
      betterSplit (betterSplit z (some b)) (some a) := by
  have swap_ab : betterSplit (some a) (some b) = betterSplit (some b) (some a) := by
    rcases lt_or_gt_of_ne hq with h | h
    · rw [betterSplit_some_neg a b (not_lt.mpr (le_of_lt h)),
        betterSplit_some_pos b a h]
    · rw [betterSplit_some_pos a b h,
        betterSplit_some_neg b a (not_lt.mpr (le_of_lt h))]
  rcases z with _ | c
  · exact swap_ab
  · by_cases h1 : c.quality > a.quality <;> by_cases h2 : c.quality > b.quality
    · rw [betterSplit_some_pos c a h1, betterSplit_some_pos c b h2,
        betterSplit_some_pos c a h1]
    · rw [betterSplit_some_pos c a h1, betterSplit_some_neg c b h2,
        betterSplit_some_pos b a (by push_neg at h2; linarith)]
    · rw [betterSplit_some_neg c a h1, betterSplit_some_pos c b h2,
        betterSplit_some_pos a b (by push_neg at h1; linarith),
        betterSplit_some_neg c a h1]
    · rw [betterSplit_some_neg c a h1, betterSplit_some_neg c b h2]
      exact swap_ab

/-- C8 (amended): the `betterSplit` fold that reduces the per-feature
results is order-independent whenever the non-nil results have pairwise
distinct qualities; with equal qualities the fold keeps the later arrival
(`betterSplit` returns its second argument on a tie), so two arrival
orderings can select splits with different features and thresholds. -/
theorem betterSplit_fold_perm (l l2 : List (Option SplitInfo)) (hp : l.Perm l2)
    (hq : (l.filterMap id).Pairwise (fun a b => a.quality ≠ b.quality)) :
    l.foldl betterSplit none = l2.foldl betterSplit none := by
  refine hp.foldl_eq' ?_ none
  intro x hx y hy z
  rcases x with _ | a
  · simp only [betterSplit_none_right]
  rcases y with _ | b
  · simp only [betterSplit_none_right]
  by_cases hab : a = b
  · subst hab
    rfl
  have ha : a ∈ l.filterMap id := List.mem_filterMap.mpr ⟨some a, hx, rfl⟩
  have hb : b ∈ l.filterMap id := List.mem_filterMap.mpr ⟨some b, hy, rfl⟩
  have hquality : a.quality ≠ b.quality :=
    List.Pairwise.forall (fun u v huv => (huv ∘ Eq.symm : _)) hq ha hb hab
  exact betterSplit_comm a b hquality z

/-- A split of quality 5 on feature 0. -/
def sA : SplitInfo := ⟨0, 1, 5, 1⟩

/-- A split of the same quality 5 on feature 1. -/
def sB : SplitInfo := ⟨1, 2, 5, 1⟩

/-- C8 counterexample: two equal-quality splits on different features.
Folding `betterSplit` over the two arrival orders of the same multiset
selects different splits (the later arrival wins the tie), so the
reduction is not order-independent when two splits have equal quality. -/
theorem betterSplit_fold_order_dependent :
    [some sA, some sB].foldl betterSplit none = some sB ∧
    [some sB, some sA].foldl betterSplit none = some sA ∧
    List.Perm [some sA, some sB] [some sB, some sA] ∧
    sA.feature ≠ sB.feature ∧ (some sB : Option SplitInfo) ≠ some sA := by
  refine ⟨?_, ?_, List.Perm.swap _ _ _, ?_, ?_⟩
  · simp [betterSplit, sA, sB]
  · simp [betterSplit, sA, sB]
  · simp [sA, sB]
  · simp [sA, sB]

/-- Witness for C8: a two-element list holding one split and one nil
reduced in both arrival orders. -/
theorem betterSplit_fold_perm_witness :
    List.Perm [some sA, none] [none, some sA] ∧
    ([some sA, none].filterMap id).Pairwise
      (fun a b => a.quality ≠ b.quality) ∧
    [some sA, none].foldl betterSplit none =
      [none, some sA].foldl betterSplit none :=
  ⟨List.Perm.swap _ _ _, by simp,
    betterSplit_fold_perm [some sA, none] [none, some sA]
      (List.Perm.swap _ _ _) (by simp)⟩

/-! ### Tree and Forest (forest.go) -/

namespace treeagent

/-- Embedding of `Tree` (forest.go): a leaf with its parameter vector, or a branching
node with a feature index, a threshold and two children. -/
inductive Tree (d : ℕ) where
  | leaf (params : Vec d)
  | branch (feature : ℕ) (threshold : ℝ) (lessThan : Tree d) (greaterEqual : Tree d)

/-- Embedding of `Tree.FindFeatureSource` (forest.go): descend to `lessThan` when the
feature's value is strictly below the threshold, else to `greaterEqual`; a
`FeatureSource` is exactly a function from feature indices to values. -/
def Tree.findFeatureSource {d : ℕ} : Tree d → (ℕ → ℝ) → Vec d
  | .leaf p, _ => p
  | .branch feat threshold l g, x =>
    if x feat < threshold then l.findFeatureSource x else g.findFeatureSource x

/-- Embedding of `Tree.scaleParams` (forest.go): multiply every leaf parameter by `scale`. -/
def Tree.scaleParams {d : ℕ} : Tree d → ℝ → Tree d
  | .leaf p, c => .leaf (vscale p c)
  | .branch feat threshold l g, c =>
    .branch feat threshold (l.scaleParams c) (g.scaleParams c)

/-- Embedding of `Forest` (forest.go): a base parameter vector plus parallel lists of
trees and weights. -/
structure Forest (d : ℕ) where
  base : Vec d
  trees : List (Tree d)
  weights : List ℝ

/-- Embedding of `Forest.ApplyFeatureSource` (forest.go): start from a fresh copy of
`Base` (`append(ActionParams{}, f.Base...)`) and add `w`-scaled tree
outputs into it tree by tree.  The Go loop reads `f.Weights[i]` while
ranging over `f.Trees` — with equally long lists that is the `zip`. -/
def Forest.applyFeatureSource {d : ℕ} (f : Forest d) (x : ℕ → ℝ) : Vec d :=
  (f.trees.zip f.weights).foldl
    (fun params tw => fun j => params j + (tw.1.findFeatureSource x) j * tw.2)
    f.base

lemma foldl_applyStep {d : ℕ} (x : ℕ → ℝ) (l : List (Tree d × ℝ)) (b : Vec d)
    (j : Fin d) :
    (l.foldl (fun params tw => fun j2 => params j2 +
        (tw.1.findFeatureSource x) j2 * tw.2) b) j =
      b j + (l.map (fun tw => (tw.1.findFeatureSource x) j * tw.2)).sum := by
  induction l generalizing b with
  | nil => simp
  | cons a rest ih =>
    simp only [List.foldl_cons, List.map_cons, List.sum_cons, ih]
    ring

lemma zip_map_sum_eq_range {d : ℕ} (x : ℕ → ℝ) (j : Fin d) :
    ∀ (t : List (Tree d)) (w : List ℝ), t.length = w.length →
      ((t.zip w).map (fun tw => (tw.1.findFeatureSource x) j * tw.2)).sum =
        ∑ i ∈ Finset.range t.length,
          (w.getD i 0) * ((t.getD i (Tree.leaf (vzero d))).findFeatureSource x j) := by
  intro t
  induction t with
  | nil =>
    intro w hw
    simp
  | cons a rest ih =>
    intro w hw
    cases w with
    | nil => exact absurd hw (by simp)
    | cons b wrest =>
      rw [List.zip_cons_cons, List.map_cons, List.sum_cons,
        ih wrest (by simpa using hw), List.length_cons,
        Finset.sum_range_succ']
      simp only [List.getD_cons_succ, List.getD_cons_zero]
      ring

/-- C2: `Forest.ApplyFeatureSource` (and `Forest.Apply`, which wraps the
feature slice as a `FeatureSource`) returns
`base + Σ_i weights[i] · trees[i].apply(x)` componentwise; the
accumulation happens in a fresh copy of the base vector, so the forest —
in particular `f.Base` — is left unchanged. -/
theorem forest_apply_linear (d : ℕ) (f : Forest d) (x : ℕ → ℝ)
    (h : f.trees.length = f.weights.length) (j : Fin d) :
    f.applyFeatureSource x j =
      f.base j + ∑ i ∈ Finset.range f.trees.length,
        (f.weights.getD i 0) *
          ((f.trees.getD i (Tree.leaf (vzero d))).findFeatureSource x j) := by
  rw [Forest.applyFeatureSource, foldl_applyStep,
    zip_map_sum_eq_range x j f.trees f.weights h]

/-- A concrete tree for the witnesses: one branch with two leaves. -/
def tW : Tree 1 :=
  Tree.branch 0 (1/2) (Tree.leaf (fun _ => 2)) (Tree.leaf (fun _ => 5))

/-- A concrete one-tree forest for the witnesses. -/
def fW : Forest 1 := ⟨fun _ => 7, [tW], [3]⟩

/-- Witness for C2 on a one-tree forest. -/
theorem forest_apply_linear_witness :
    (fW.trees.length = fW.weights.length) ∧
    fW.applyFeatureSource (fun _ => 0) 0 =
      fW.base 0 + ∑ i ∈ Finset.range fW.trees.length,
        (fW.weights.getD i 0) *
          ((fW.trees.getD i (Tree.leaf (vzero 1))).findFeatureSource (fun _ => 0) 0) :=
  ⟨rfl, forest_apply_linear 1 fW (fun _ => 0) rfl 0⟩

/-! ### Leaf parameters (algo.go) and the leaf base case of
`Builder.buildRecursive` (part_007) -/

/-- Embedding of `TreeAlgorithm` (algo.go). -/
inductive TreeAlgorithm where
  | sum
  | mean
  | mse
  | balancedSum
  | stddev
  | sign
  | abs
deriving DecidableEq

/-- Modelled from the spec: `smallVec.Signs` is called by algo.go and
signs.go but its definition is missing from the given sources; spec
section 4.2 defines it as the componentwise sign in −1, 0, +1. -/
def signFloat (x : ℝ) : ℝ := if x < 0 then -1 else if 0 < x then 1 else 0

/-- Componentwise signs of a vector (see `signFloat`). -/
def vsigns {d : ℕ} (v : Vec d) : Vec d := fun j => signFloat (v j)

/-- Embedding of `TreeAlgorithm.leafParams` (algo.go): Sign takes the componentwise
sign of the gradient sum; Sum and BalancedSum divide the gradient sum by
the total sample count `len(allData)`; the others divide it by the leaf's
own sample count. -/
def leafParams {d : ℕ} (alg : TreeAlgorithm) (leafData allData : List (Vec d)) :
    Vec d :=
  match alg with
  | .sign => vsigns (sumGradients leafData)
  | .sum | .balancedSum =>
    vscale (sumGradients leafData) (1 / (allData.length : ℝ))
  | .mean | .mse | .stddev | .abs =>
    vscale (sumGradients leafData) (1 / (leafData.length : ℝ))

/-- Embedding of `SignTree` (signs.go): copy the tree with every leaf parameter
replaced by its sign. -/
def signTree {d : ℕ} : Tree d → Tree d
  | .leaf p => .leaf (vsigns p)
  | .branch feat threshold l g => .branch feat threshold (signTree l) (signTree g)

/-- The leaf base case of `Builder.buildRecursive` (part_007), reached at
depth 0 or with a single sample: build the leaf from `leafParams`, then
for Sum and BalancedSum rescale its parameters by `1/len(data)`
(`res.scaleParams(1 / float64(len(data)))`), and for Sign re-apply the
componentwise sign. -/
def buildLeaf {d : ℕ} (alg : TreeAlgorithm) (data allData : List (Vec d)) :
    Tree d :=
  let res := Tree.leaf (leafParams alg data allData)
  if alg = TreeAlgorithm.sum ∨ alg = TreeAlgorithm.balancedSum then
    res.scaleParams (1 / (data.length : ℝ))
  else if alg = TreeAlgorithm.sign then signTree res
  else res

/-- Concrete 1-dimensional gradient with value 2. -/
def gC2 : Vec 1 := fun _ => 2

/-- C3 (the code takes one division too many): on two samples of
1-dimensional gradient 2 each with the whole set routed to one leaf, the
Sum- and BalancedSum-algorithm leaf of `buildRecursive` holds 1 — the sum
4 divided by the total count N = 2 inside `leafParams` and then again by
the leaf's own sample count 2 by the base case's `scaleParams` — while
`Σ g / N` as the claim and algo.go's `leafParams` convention state it
is 2. -/
theorem sum_leaf_double_scaled :
    buildLeaf TreeAlgorithm.sum [gC2, gC2] [gC2, gC2] =
      Tree.leaf (fun _ => 1) ∧
    buildLeaf TreeAlgorithm.balancedSum [gC2, gC2] [gC2, gC2] =
      Tree.leaf (fun _ => 1) ∧
    leafParams TreeAlgorithm.sum [gC2, gC2] [gC2, gC2] = (fun _ => 2) ∧
    (1 : ℝ) ≠ 2 := by
  have hsum : sumGradients [gC2, gC2] = fun _ : Fin 1 => (4:ℝ) := by
    funext j
    simp [sumGradients, vadd, gC2]
    norm_num
  have hlp : ∀ a : TreeAlgorithm, a = TreeAlgorithm.sum ∨ a = TreeAlgorithm.balancedSum →
      leafParams a [gC2, gC2] [gC2, gC2] = (fun _ => 2) := by
    rintro a (rfl | rfl) <;>
      · funext j
        rw [leafParams, hsum]
        simp [vscale]
        norm_num
  have hbuild : ∀ a : TreeAlgorithm,
      a = TreeAlgorithm.sum ∨ a = TreeAlgorithm.balancedSum →
      buildLeaf a [gC2, gC2] [gC2, gC2] = Tree.leaf (fun _ => 1) := by
    intro a h
    simp only [buildLeaf]
    rw [if_pos h, hlp a h, Tree.scaleParams]
    congr 1
    funext j
    norm_num [vscale]
  exact ⟨hbuild _ (Or.inl rfl), hbuild _ (Or.inr rfl), hlp _ (Or.inl rfl),
    by norm_num⟩

/-! ### Judger.OptimalWeight (judger.go) -/

/-- A sample as the Judger consumes it: a feature source plus the
advantage field (the regression target). -/
structure JSample where
  features : ℕ → ℝ
  advantage : ℝ

/-- Modelled from the spec: `Forest.applySamples` is called by judger.go
and gradient.go but its definition is missing from the given sources; per
spec section 4.6 the Judger evaluates the current value forest on every
sample, producing one output vector per sample. -/
def Forest.applySamples {d : ℕ} (f : Forest d) (data : List JSample) :
    List (Vec d) :=
  data.map (fun s => f.applyFeatureSource s.features)

/-- Embedding of `Judger.OptimalWeight` (judger.go): accumulate
`out·(advantage − approximation)` and `out·out` over the samples, where
`out = t.FindFeatureSource(sample)[0]` and `approximation = outs[i][0]`
is the value forest's scalar prediction; return 0 when the denominator is
0, else their quotient. -/
def optimalWeight (vf : Forest 1) (data : List JSample) (t : Tree 1) : ℝ :=
  let outs := vf.applySamples data
  let numerator := ((data.zip outs).map
    (fun p => (t.findFeatureSource p.1.features 0) * (p.1.advantage - p.2 0))).sum
  let denominator := ((data.zip outs).map
    (fun p => (t.findFeatureSource p.1.features 0) *
      (t.findFeatureSource p.1.features 0))).sum
  if denominator = 0 then 0 else numerator / denominator

lemma zip_applySamples_map_sum (vf : Forest 1) (data : List JSample)
    (F : JSample → Vec 1 → ℝ) :
    ((data.zip (vf.applySamples data)).map (fun p => F p.1 p.2)).sum =
      (data.map (fun s => F s (vf.applyFeatureSource s.features))).sum := by
  induction data with
  | nil => rfl
  | cons s rest ih =>
    simp only [Forest.applySamples, List.map_cons, List.zip_cons_cons,
      List.sum_cons] at ih ⊢
    rw [show ((rest.zip (List.map (fun s => vf.applyFeatureSource s.features) rest)).map
        (fun p => F p.1 p.2)).sum =
      (rest.map (fun s => F s (vf.applyFeatureSource s.features))).sum from ih]

/-- C9: `Judger.OptimalWeight` returns
`Σ_i t(s_i)·(target_i − V(s_i)) / Σ_i t(s_i)²` where `V` is the value
forest's scalar prediction and `target` the sample's advantage field, and
it returns exactly 0 — rather than failing — when `Σ_i t(s_i)²` is 0. -/
theorem optimalWeight_formula (vf : Forest 1) (data : List JSample)
    (t : Tree 1) (hne : data ≠ []) :
    ((data.map (fun s => (t.findFeatureSource s.features 0) *
        (t.findFeatureSource s.features 0))).sum = 0 →
      optimalWeight vf data t = 0) ∧
    ((data.map (fun s => (t.findFeatureSource s.features 0) *
        (t.findFeatureSource s.features 0))).sum ≠ 0 →
      optimalWeight vf data t =
        (data.map (fun s => (t.findFeatureSource s.features 0) *
          (s.advantage - vf.applyFeatureSource s.features 0))).sum /
        (data.map (fun s => (t.findFeatureSource s.features 0) *
          (t.findFeatureSource s.features 0))).sum) := by
  rw [optimalWeight]
  rw [zip_applySamples_map_sum vf data
    (fun s out => (t.findFeatureSource s.features 0) * (s.advantage - out 0))]
  rw [zip_applySamples_map_sum vf data
    (fun s _ => (t.findFeatureSource s.features 0) * (t.findFeatureSource s.features 0))]
  constructor
  · intro h
    rw [if_pos h]
  · intro h
    rw [if_neg h]

/-- A depth-0 value tree for the C9 witness. -/
def tW9 : Tree 1 := Tree.leaf (fun _ => 1)

/-- The zero value forest for the C9 witness. -/
def fW9 : Forest 1 := ⟨fun _ => 0, [], []⟩

/-- A single training sample for the C9 witness. -/
def sW9 : JSample := ⟨fun _ => 0, 2⟩

/-- Witness for C9 on one sample with target 2 against the zero value
forest and the constant-1 tree. -/
theorem optimalWeight_formula_witness :
    ([sW9] : List JSample) ≠ [] ∧
    ((([sW9] : List JSample).map (fun s => (tW9.findFeatureSource s.features 0) *
        (tW9.findFeatureSource s.features 0))).sum = 0 →
      optimalWeight fW9 [sW9] tW9 = 0) ∧
    ((([sW9] : List JSample).map (fun s => (tW9.findFeatureSource s.features 0) *
        (tW9.findFeatureSource s.features 0))).sum ≠ 0 →
      optimalWeight fW9 [sW9] tW9 =
        (([sW9] : List JSample).map (fun s => (tW9.findFeatureSource s.features 0) *
          (s.advantage - fW9.applyFeatureSource s.features 0))).sum /
        (([sW9] : List JSample).map (fun s => (tW9.findFeatureSource s.features 0) *
          (tW9.findFeatureSource s.features 0))).sum) :=
  ⟨by simp, (optimalWeight_formula fW9 [sW9] tW9 (by simp)).1,
    (optimalWeight_formula fW9 [sW9] tW9 (by simp)).2⟩

/-! ### The clipped PPO objective (ppo.go, the `PPO.objective` form) -/

/-- Modelled from the spec: `anypg.DefaultPPOEpsilon` lives in the external
anypg library; the spec fixes the default clipping parameter to 0.2. -/
def defaultPPOEpsilon : ℝ := 0.2

/-- The effective ε of ppo.go: `DefaultPPOEpsilon` when 0 is passed. -/
def ppoEpsilon (e : ℝ) : ℝ := if e = 0 then defaultPPOEpsilon else e

/-- Embedding of `PPO.bestValue` (ppo.go): `adv·(1−ε)` for negative advantage,
`adv·(1+ε)` otherwise. -/
def bestValue (e adv : ℝ) : ℝ :=
  if adv < 0 then adv * (1 - ppoEpsilon e) else adv * (1 + ppoEpsilon e)

/-- The gradient that `PPO.objective` (ppo.go) backpropagates to the new
action parameters (without the optional regularizer): the raw objective is
`Scale(ratio, adv)`; when `shouldClip` holds — the raw objective strictly
exceeds `bestValue` — it is replaced by a constant, so the surrogate
contributes a zero gradient; otherwise backpropagation through the scale
node yields `adv · ∇ratio`, where `gradRatio` stands for the gradient of
the probability ratio `exp(logπ_new − logπ_old)` with respect to the new
parameters at this sample. -/
def ppoObjectiveGradient {d : ℕ} (e ratio adv : ℝ) (gradRatio : Vec d) :
    Vec d :=
  if ratio * adv > bestValue e adv then vzero d
  else fun j => adv * gradRatio j

/-- C7: for the clipped PPO surrogate with parameter ε (0.2 when 0 is
passed): at a sample with advantage A > 0 and ratio r > 1+ε the gradient
with respect to the new action parameters is exactly zero; likewise when
A < 0 and r < 1−ε; on the unclipped region (A > 0, r ≤ 1+ε, or A < 0,
r ≥ 1−ε, or A = 0) it equals the unclipped importance-weighted policy
gradient `A · ∇r` of `r·A`. -/
theorem ppo_surrogate_gradient (d : ℕ) (e r adv : ℝ) (g : Vec d) :
    (0 < adv → 1 + ppoEpsilon e < r →
      ppoObjectiveGradient e r adv g = vzero d) ∧
    (adv < 0 → r < 1 - ppoEpsilon e →
      ppoObjectiveGradient e r adv g = vzero d) ∧
    (0 < adv → r ≤ 1 + ppoEpsilon e →
      ppoObjectiveGradient e r adv g = fun j => adv * g j) ∧
    (adv < 0 → 1 - ppoEpsilon e ≤ r →
      ppoObjectiveGradient e r adv g = fun j => adv * g j) ∧
    (adv = 0 → ppoObjectiveGradient e r adv g = fun j => adv * g j) := by
  refine ⟨?_, ?_, ?_, ?_, ?_⟩
  · intro ha hr
    rw [ppoObjectiveGradient, bestValue, if_neg (not_lt.mpr (le_of_lt ha))]
    rw [if_pos (by nlinarith)]
  · intro ha hr
    rw [ppoObjectiveGradient, bestValue, if_pos ha]
    rw [if_pos (by nlinarith)]
  · intro ha hr
    rw [ppoObjectiveGradient, bestValue, if_neg (not_lt.mpr (le_of_lt ha))]
    rw [if_neg (by nlinarith)]
  · intro ha hr
    rw [ppoObjectiveGradient, bestValue, if_pos ha]
    rw [if_neg (by nlinarith)]
  · intro ha
    subst ha
    rw [ppoObjectiveGradient, bestValue, if_neg (lt_irrefl 0)]
    rw [if_neg (by norm_num)]

/-- Witness for C7 at ε defaulted from 0: a clipped positive-advantage
sample (A = 1, r = 2), a clipped negative-advantage sample
(A = −1, r = 1/2) and an interior sample (A = 1, r = 1). -/
theorem ppo_surrogate_gradient_witness :
    ((0:ℝ) < 1 ∧ 1 + ppoEpsilon 0 < 2 ∧
      ppoObjectiveGradient 0 2 1 gC1 = vzero 1) ∧
    ((-1:ℝ) < 0 ∧ (1/2:ℝ) < 1 - ppoEpsilon 0 ∧
      ppoObjectiveGradient 0 (1/2) (-1) gC1 = vzero 1) ∧
    ((0:ℝ) < 1 ∧ (1:ℝ) ≤ 1 + ppoEpsilon 0 ∧
      ppoObjectiveGradient 0 1 1 gC1 = fun j => 1 * gC1 j) := by
  have he : ppoEpsilon 0 = 0.2 := by
    rw [ppoEpsilon, if_pos rfl, defaultPPOEpsilon]
  refine ⟨⟨by norm_num, by rw [he]; norm_num, ?_⟩,
    ⟨by norm_num, by rw [he]; norm_num, ?_⟩,
    ⟨by norm_num, by rw [he]; norm_num, ?_⟩⟩
  · exact (ppo_surrogate_gradient 1 0 2 1 gC1).1 (by norm_num)
      (by rw [he]; norm_num)
  · exact (ppo_surrogate_gradient 1 0 (1/2) (-1) gC1).2.1 (by norm_num)
      (by rw [he]; norm_num)
  · exact (ppo_surrogate_gradient 1 0 1 1 gC1).2.2.1 (by norm_num)
      (by rw [he]; norm_num)

end treeagent
